import Mathlib

/-!
Verification of the code-dependency scanner (`xray_scanner.py`,
class `CodeDependencyScanner`) against its natural-language specification.

The Python code is shallowly embedded below.  Pure string manipulation is
translated to executable functions on `String` / `List Char`; Python dicts
(which preserve insertion order and update in place) are modelled as
association lists with a faithful `dictInsert`; the per-file parse step —
whose outcome depends on the filesystem and on CPython's `ast` module —
is modelled by passing each file's parse outcome (`ParseResult`) into the
orchestrator, and the `ast.parse` call itself is abstracted as an
`Option (List String)` argument (`some` = parse succeeded and yielded the
listed dotted module names, `none` = the parser rejected the source with a
syntax error, the failure mode the code catches).
-/

/-! ## Basic path helpers -/

/-- Python `s.split('/')[-1]`: the part of `s` after the last `'/'`
(the whole string when there is no `'/'`). -/
def lastSegment (s : String) : String :=
  ⟨(s.data.reverse.takeWhile (fun c => c != '/')).reverse⟩

/-- Python `s.split('/')[0]`: the part of `s` before the first `'/'`
(the whole string when there is no `'/'`). -/
def topDir (s : String) : String :=
  ⟨s.data.takeWhile (fun c => c != '/')⟩

/-- Does the string end in a `'/'`? (used by `joinPath`). -/
def endsWithSlash (a : String) : Bool :=
  a.data.getLast? = some '/'

/-- `os.path.join a b` for the case where `b` is a relative path (the only
case the scanner ever produces: the second argument is always
`dep + extension` and `dep` never contains a separator). -/
def joinPath (a b : String) : String :=
  if a = "" then b
  else if endsWithSlash a then a ++ b
  else a ++ "/" ++ b

/-- Python `content.split('\n')` on the character list: the list of
`'\n'`-separated segments (always at least one segment). -/
def splitLines : List Char → List (List Char)
  | [] => [[]]
  | c :: rest =>
    if c = '\n' then [] :: splitLines rest
    else
      match splitLines rest with
      | [] => [[c]]
      | l :: ls => (c :: l) :: ls

/-! ## `CodeDependencyScanner.__init__`: the supported extensions -/

/-- `self.supported_extensions` from `__init__`. -/
def supported_extensions : List (String × String) :=
  [(".py", "python"), (".js", "javascript"), (".ts", "typescript"),
   (".tsx", "typescript"), (".jsx", "javascript")]

/-- First-match lookup in an association list (Python dict read). -/
def dictGet? {α : Type} : List (String × α) → String → Option α
  | [], _ => none
  | e :: rest, k => if e.1 = k then some e.2 else dictGet? rest k

/-- Python `d[k] = v` on an insertion-ordered dict: update the existing
entry in place, or append a new entry at the end. -/
def dictInsert {α : Type} (d : List (String × α)) (k : String) (v : α) :
    List (String × α) :=
  if k ∈ d.map Prod.fst then d.map (fun e => if e.1 = k then (k, v) else e)
  else d ++ [(k, v)]

/-- `d.get(k, 0) + 1` stored back at `k` — the per-language counter update
in `scan_directory`. -/
def tallyIncr (d : List (String × Nat)) (k : String) : List (String × Nat) :=
  dictInsert d k ((dictGet? d k).getD 0 + 1)

/-! ## `_clean_js_import` -/

/-- The extension alternatives of `re.sub(r'\.(js|jsx|ts|tsx|json)$', '', base)`,
with the leading dot. -/
def known_ext_suffixes : List String :=
  [".js", ".jsx", ".ts", ".tsx", ".json"]

/-- Remove one trailing known extension, if present (no two of the
alternatives can be suffixes of the same string at once). -/
def dropKnownSuffix (s : String) : String :=
  match known_ext_suffixes.find? (fun suf => suf.data.isSuffixOf s.data) with
  | some suf => ⟨s.data.take (s.data.length - suf.data.length)⟩
  | none => s

/-- `re.sub(r'\.(js|jsx|ts|tsx|json)$', '', s)`: Python `$` also matches
just before one trailing newline, so a single final `'\n'` is transparent
to the substitution. -/
def strip_ext (s : String) : String :=
  if s.data.getLast? = some '\n' then dropKnownSuffix ⟨s.data.dropLast⟩ ++ "\n"
  else dropKnownSuffix s

/-- `CodeDependencyScanner._clean_js_import`: take the final path segment,
then strip one trailing known extension. -/
def clean_js_import (module : String) : String :=
  strip_ext (lastSegment module)

/-! ## `_parse_python_imports` -/

/-- `\s` of the Python `re` module (ASCII range). -/
def isPySpace (c : Char) : Bool :=
  c = ' ' || c = '\t' || c = '\n' || c = '\r' || c = '\x0b' || c = '\x0c'

/-- `\w` of the Python `re` module (restricted to `[A-Za-z0-9_]`). -/
def isWordChar (c : Char) : Bool :=
  c.isAlphanum || c = '_'

/-- One line of the fallback pattern
`r'^\s*(?:import|from)\s+(\w+)'` (MULTILINE), applied line by line:
leading whitespace, an `import`/`from` keyword, at least one whitespace
character, then the captured identifier. -/
def matchImportLine (line : List Char) : Option String :=
  let rest := line.dropWhile isPySpace
  let afterKw :=
    if "import".data.isPrefixOf rest then some (rest.drop 6)
    else if "from".data.isPrefixOf rest then some (rest.drop 4)
    else none
  match afterKw with
  | none => none
  | some r =>
    match r with
    | [] => none
    | c :: _ =>
      if isPySpace c then
        let w := (r.dropWhile isPySpace).takeWhile isWordChar
        if w.isEmpty then none else some ⟨w⟩
      else none

/-- The `except SyntaxError` fallback of `_parse_python_imports`:
`set(re.findall(r'^\s*(?:import|from)\s+(\w+)', content, re.MULTILINE))`.
A total function of the content — it cannot fail. -/
def python_fallback (content : String) : List String :=
  ((splitLines content.data).filterMap matchImportLine).dedup

/-- Python `m.split('.')[0]`. -/
def topModule (m : String) : String :=
  ⟨m.data.takeWhile (fun c => c != '.')⟩

/-- `CodeDependencyScanner._parse_python_imports`.  The `ast.parse` call is
abstracted by `astModules`: `some mods` means the structural parse succeeded
and walking the tree yielded the dotted names `mods` (from `ast.Import`
aliases and present `ast.ImportFrom` modules), of which the code keeps
`split('.')[0]`; `none` means `ast.parse` raised `SyntaxError`, in which
case the code runs the line-oriented fallback on the same content within
the same call. -/
def parse_python_imports (astModules : Option (List String)) (content : String) :
    List String :=
  match astModules with
  | some mods => (mods.map topModule).dedup
  | none => python_fallback content

/-! ## File metadata (`_parse_file`) -/

structure FileMeta where
  language : String
  extension : String
  size : Nat
  lines : Nat
deriving DecidableEq, Repr

/-- The metadata dict built in `_parse_file`: `size` is `len(content)` of the
decoded text and `lines` is `len(content.split('\n'))`, computed the same
way for every language. -/
def file_metadata (ext : String) (content : String) : FileMeta :=
  { language := (dictGet? supported_extensions ext).getD ""
    extension := ext
    size := content.length
    lines := (splitLines content.data).length }

/-! ## Graph construction (`_build_nodes`, `_build_links`) -/

structure Node where
  id : String
  name : String
  path : String
  group : Nat
  color : String
  language : String
  extension : String
  size : Nat
  lines : Nat
  url : String
deriving DecidableEq, Repr

structure Link where
  source : String
  target : String
  value : Nat
deriving DecidableEq, Repr

/-- The extension-keyed group/color branching of `_build_nodes`. -/
def node_group_color (extension : String) : Nat × String :=
  if extension = ".py" then (1, "#3b82f6")
  else if extension = ".ts" ∨ extension = ".tsx" then (2, "#0891b2")
  else if extension = ".js" ∨ extension = ".jsx" then (3, "#eab308")
  else (4, "#6b7280")

/-- `CodeDependencyScanner._build_nodes`: one node per `file_info` entry,
in dict (= insertion) order. -/
def build_nodes (file_info : List (String × FileMeta)) : List Node :=
  file_info.map (fun e =>
    { id := e.1
      name := lastSegment e.1
      path := e.1
      group := (node_group_color e.2.extension).1
      color := (node_group_color e.2.extension).2
      language := e.2.language
      extension := e.2.extension
      size := e.2.size
      lines := e.2.lines
      url := "/xray/" ++ e.1 })

/-- The `possible_targets` list of `_build_links`, in source order: the bare
name with `.py`, `.js`, `.ts` appended, then the same three joined under
`from_file.split('/')[0]`. -/
def possible_targets (from_file dep : String) : List String :=
  [dep ++ ".py", dep ++ ".js", dep ++ ".ts",
   joinPath (topDir from_file) (dep ++ ".py"),
   joinPath (topDir from_file) (dep ++ ".js"),
   joinPath (topDir from_file) (dep ++ ".ts")]

/-- The inner `for target in possible_targets: if target in all_files: … break`
loop: the first candidate present among the scanned relative paths. -/
def resolve_dep (all_files : List String) (from_file dep : String) :
    Option String :=
  (possible_targets from_file dep).find? (fun t => all_files.contains t)

/-- `CodeDependencyScanner._build_links`.  `all_files` is the key set of
`file_dependencies`; each dependency contributes the link for its first
matching candidate, or nothing.  (`file_info` is a parameter of the Python
method but is not read by it.) -/
def build_links (file_dependencies : List (String × List String))
    (file_info : List (String × FileMeta)) : List Link :=
  let all_files := file_dependencies.map Prod.fst
  file_dependencies.flatMap (fun e =>
    e.2.filterMap (fun dep =>
      (resolve_dep all_files e.1 dep).map
        (fun target => { source := e.1, target := target, value := 1 })))

/-! ## The orchestrator (`scan_directory`) -/

/-- Outcome of `_parse_file` on one discovered file: either a dependency
set (as a list) plus metadata, or the text of the exception it raised. -/
inductive ParseResult where
  | ok (deps : List String) (meta : FileMeta)
  | err (msg : String)
deriving DecidableEq, Repr

/-- One discovered file as the orchestrator sees it: the walked path, its
`os.path.relpath` relative to the root, and its parse outcome. -/
structure ScanFile where
  path : String
  rel : String
  result : ParseResult
deriving DecidableEq, Repr

structure ScanMetadata where
  total_files : Nat
  languages : List (String × Nat)
  scan_errors : List String
deriving DecidableEq, Repr

structure ScanDocument where
  project_name : String
  root_path : String
  nodes : List Node
  links : List Link
  metadata : ScanMetadata
deriving DecidableEq, Repr

/-- The mutable state accumulated by `scan_directory`'s per-file loop. -/
structure ScanState where
  file_dependencies : List (String × List String)
  file_info : List (String × FileMeta)
  total_files : Nat
  languages : List (String × Nat)
  scan_errors : List String
deriving DecidableEq, Repr

def initState : ScanState :=
  { file_dependencies := [], file_info := [], total_files := 0,
    languages := [], scan_errors := [] }

/-- One iteration of the `for file_path in self._walk_files(...)` loop:
on success record dependencies, metadata, and counters; on an exception
record one error string (built from the walked path) and nothing else. -/
def scanStep (st : ScanState) (f : ScanFile) : ScanState :=
  match f.result with
  | .ok deps meta =>
    { file_dependencies := dictInsert st.file_dependencies f.rel deps
      file_info := dictInsert st.file_info f.rel meta
      total_files := st.total_files + 1
      languages := tallyIncr st.languages meta.language
      scan_errors := st.scan_errors }
  | .err msg =>
    { st with scan_errors := st.scan_errors ++ ["Error parsing " ++ f.path ++ ": " ++ msg] }

/-- The document assembled after the loop (the `scan_time` field, being a
wall-clock read, is not modelled). -/
def mkDoc (root name : String) (files : List ScanFile) : ScanDocument :=
  let st := files.foldl scanStep initState
  { project_name := name
    root_path := root
    nodes := build_nodes st.file_info
    links := build_links st.file_dependencies st.file_info
    metadata := { total_files := st.total_files, languages := st.languages,
                  scan_errors := st.scan_errors } }

/-- `CodeDependencyScanner.scan_directory`: the two root-validation
`raise ValueError(...)` branches (modelled by the booleans
`rootExists = os.path.exists(root)` and `rootIsDir = os.path.isdir(root)`),
then the per-file loop and graph construction. -/
def scan_directory (root : String) (rootExists rootIsDir : Bool)
    (name : String) (files : List ScanFile) : Except String ScanDocument :=
  if rootExists = false then .error ("Path does not exist: " ++ root)
  else if rootIsDir = false then .error ("Path is not a directory: " ++ root)
  else .ok (mkDoc root name files)

/-! ## File discovery (`_walk_files`) -/

/-- A directory tree: named subdirectories and file names at each level. -/
inductive FSTree where
  | node (dirs : List (String × FSTree)) (files : List String)
deriving Repr

/-- The `skip_dirs` set of `_walk_files`. -/
def skip_dirs : List String :=
  [".git", "node_modules", "__pycache__", ".venv", "venv",
   "build", "dist", ".next", ".nuxt", "coverage",
   ".terraform", "target"]

/-- `os.path.splitext(name)[1]` for a bare file name: the suffix from the
last dot, unless every character before that dot is itself a dot. -/
def splitext_ext (name : List Char) : String :=
  let afterRev := name.reverse.takeWhile (fun c => c != '.')
  if afterRev.length = name.length then ""
  else
    let stem := name.take (name.length - afterRev.length - 1)
    if stem.all (fun c => c = '.') then ""
    else ⟨'.' :: afterRev.reverse⟩

/-- The `ext in self.supported_extensions` test of `_walk_files`. -/
def isSupportedFile (fname : String) : Bool :=
  (supported_extensions.map Prod.fst).contains (splitext_ext fname.data)

mutual

/-- `CodeDependencyScanner._walk_files` over an `FSTree`, following
`os.walk`'s top-down order: the current directory's matching files, then
the non-skipped subdirectories in order.  Subdirectories whose name is in
`skip_dirs` are removed from `dirnames` before traversal, so their contents
are never visited. -/
def walk_files (path : String) : FSTree → List String
  | .node dirs fs =>
    (fs.filter isSupportedFile).map (fun f => joinPath path f) ++
      walk_dirs path dirs

/-- Traversal of the (already filtered in-place) subdirectory list. -/
def walk_dirs (path : String) : List (String × FSTree) → List String
  | [] => []
  | d :: rest =>
    (if d.1 ∈ skip_dirs then [] else walk_files (joinPath path d.1) d.2) ++
      walk_dirs path rest

end

/-! ## Dictionary lemmas -/

theorem dictKeys_insert {α : Type} (d : List (String × α)) (k : String) (v : α) :
    (dictInsert d k v).map Prod.fst =
      if k ∈ d.map Prod.fst then d.map Prod.fst else d.map Prod.fst ++ [k] := by
  unfold dictInsert
  by_cases h : k ∈ d.map Prod.fst
  · rw [if_pos h, if_pos h, List.map_map]
    apply List.map_congr_left
    intro e _
    by_cases he : e.1 = k <;> simp [he]
  · rw [if_neg h, if_neg h, List.map_append]
    rfl

theorem mem_dictKeys_insert {α : Type} {x k : String} {v : α}
    {d : List (String × α)} :
    x ∈ (dictInsert d k v).map Prod.fst ↔ x ∈ d.map Prod.fst ∨ x = k := by
  rw [dictKeys_insert]
  by_cases h : k ∈ d.map Prod.fst
  · rw [if_pos h]
    constructor
    · exact Or.inl
    · rintro (hx | rfl)
      · exact hx
      · exact h
  · rw [if_neg h]
    simp

theorem mem_keys_foldl_insert {α γ : Type} (key : γ → String) (val : γ → α)
    (es : List γ) (d : List (String × α)) (x : String) :
    (x ∈ (es.foldl (fun acc e => dictInsert acc (key e) (val e)) d).map Prod.fst) ↔
      x ∈ d.map Prod.fst ∨ x ∈ es.map key := by
  induction es generalizing d with
  | nil => simp
  | cons e rest ih =>
    rw [List.foldl_cons, ih]
    rw [mem_dictKeys_insert]
    simp
    tauto

theorem length_foldl_insert {α γ : Type} (key : γ → String) (val : γ → α)
    (es : List γ) (d : List (String × α))
    (h1 : (es.map key).Nodup)
    (h2 : ∀ e ∈ es, key e ∉ d.map Prod.fst) :
    (es.foldl (fun acc e => dictInsert acc (key e) (val e)) d).length
      = d.length + es.length := by
  induction es generalizing d with
  | nil => simp
  | cons e rest ih =>
    have hk : key e ∉ d.map Prod.fst := h2 e (List.mem_cons_self e rest)
    have hins : dictInsert d (key e) (val e) = d ++ [(key e, val e)] := by
      unfold dictInsert
      rw [if_neg hk]
    rw [List.foldl_cons, hins]
    have h1' : (rest.map key).Nodup := (List.nodup_cons.mp (by simpa using h1)).2
    have hke : key e ∉ rest.map key := (List.nodup_cons.mp (by simpa using h1)).1
    have h2' : ∀ e' ∈ rest, key e' ∉ (d ++ [(key e, val e)]).map Prod.fst := by
      intro e' he'
      rw [List.map_append]
      intro hmem
      rcases List.mem_append.mp hmem with hmem | hmem
      · exact h2 e' (List.mem_cons_of_mem e he') hmem
      · simp at hmem
        exact hke (hmem ▸ List.mem_map_of_mem key he')
    rw [ih _ h1' h2']
    simp
    omega

/-! ## Tally lemmas -/

def sumValues (d : List (String × Nat)) : Nat := (d.map Prod.snd).sum

theorem tallyIncr_cons_ne (k0 : String) (v0 : Nat)
    (rest : List (String × Nat)) (k : String) (h : k0 ≠ k) :
    tallyIncr ((k0, v0) :: rest) k = (k0, v0) :: tallyIncr rest k := by
  unfold tallyIncr
  have hget : dictGet? ((k0, v0) :: rest) k = dictGet? rest k := by
    simp only [dictGet?]
    rw [if_neg h]
  rw [hget]
  unfold dictInsert
  by_cases hm : k ∈ rest.map Prod.fst
  · have hm' : k ∈ ((k0, v0) :: rest).map Prod.fst := by
      simp only [List.map_cons, List.mem_cons]
      exact Or.inr hm
    rw [if_pos hm', if_pos hm, List.map_cons]
    rw [if_neg h]
  · have hm' : k ∉ ((k0, v0) :: rest).map Prod.fst := by
      simp only [List.map_cons, List.mem_cons]
      rintro (hc | hc)
      · exact h hc.symm
      · exact hm hc
    rw [if_neg hm', if_neg hm]
    rfl

theorem sumValues_tallyIncr (d : List (String × Nat)) (k : String)
    (hnd : (d.map Prod.fst).Nodup) :
    sumValues (tallyIncr d k) = sumValues d + 1 := by
  induction d with
  | nil => rfl
  | cons e rest ih =>
    obtain ⟨k0, v0⟩ := e
    rw [List.map_cons, List.nodup_cons] at hnd
    by_cases h : k0 = k
    · subst h
      have hupd : tallyIncr ((k0, v0) :: rest) k0 = (k0, v0 + 1) :: rest := by
        unfold tallyIncr
        have hget : dictGet? ((k0, v0) :: rest) k0 = some v0 := by
          unfold dictGet?
          rw [if_pos rfl]
        rw [hget]
        unfold dictInsert
        have hm : k0 ∈ ((k0, v0) :: rest).map Prod.fst := by simp
        rw [if_pos hm, List.map_cons, if_pos rfl]
        congr 1
        have : ∀ e ∈ rest, (if (e : String × Nat).1 = k0 then (k0, v0 + 1) else e) = e := by
          intro e he
          rw [if_neg]
          intro hc
          have hmem : k0 ∈ rest.map Prod.fst := by
            rw [← hc]
            exact List.mem_map_of_mem Prod.fst he
          exact hnd.1 hmem
        calc rest.map (fun e => if e.1 = k0 then (k0, v0 + 1) else e)
            = rest.map id := List.map_congr_left (by simpa using this)
          _ = rest := List.map_id rest
      rw [hupd]
      simp [sumValues]
      omega
    · rw [tallyIncr_cons_ne k0 v0 rest k h]
      simp only [sumValues, List.map_cons, List.sum_cons] at *
      rw [ih hnd.2]
      omega

theorem keys_tallyIncr (d : List (String × Nat)) (k : String) :
    (tallyIncr d k).map Prod.fst =
      if k ∈ d.map Prod.fst then d.map Prod.fst else d.map Prod.fst ++ [k] := by
  unfold tallyIncr
  exact dictKeys_insert d k _

theorem nodup_keys_tallyIncr {d : List (String × Nat)} {k : String}
    (h : (d.map Prod.fst).Nodup) : ((tallyIncr d k).map Prod.fst).Nodup := by
  rw [keys_tallyIncr]
  by_cases hm : k ∈ d.map Prod.fst
  · rw [if_pos hm]
    exact h
  · rw [if_neg hm]
    simp [List.nodup_append, h, hm]

theorem sumValues_foldl_tallyIncr {γ : Type} (key : γ → String) (es : List γ)
    (d : List (String × Nat)) (hnd : (d.map Prod.fst).Nodup) :
    sumValues (es.foldl (fun acc e => tallyIncr acc (key e)) d)
      = sumValues d + es.length := by
  induction es generalizing d with
  | nil => simp
  | cons e rest ih =>
    rw [List.foldl_cons, ih _ (nodup_keys_tallyIncr hnd),
        sumValues_tallyIncr d _ hnd]
    simp
    omega

/-! ## Characterizing the orchestrator loop -/

/-- The successfully parsed files, in order: relative path, dependency
list, metadata. -/
def okEntries (files : List ScanFile) : List (String × List String × FileMeta) :=
  files.filterMap (fun f =>
    match f.result with
    | .ok deps meta => some (f.rel, deps, meta)
    | .err _ => none)

/-- The error strings recorded by the loop, in order. -/
def errMsgs (files : List ScanFile) : List String :=
  files.filterMap (fun f =>
    match f.result with
    | .ok _ _ => none
    | .err msg => some ("Error parsing " ++ f.path ++ ": " ++ msg))

/-- The state after the per-file loop, field by field: dictionaries and
counters accumulate over the successfully parsed files only, and the error
list accumulates one string per failed file. -/
theorem foldl_scanStep_char (files : List ScanFile) (st : ScanState) :
    files.foldl scanStep st =
      { file_dependencies :=
          (okEntries files).foldl (fun d e => dictInsert d e.1 e.2.1)
            st.file_dependencies
        file_info :=
          (okEntries files).foldl (fun d e => dictInsert d e.1 e.2.2)
            st.file_info
        total_files := st.total_files + (okEntries files).length
        languages :=
          (okEntries files).foldl (fun d e => tallyIncr d e.2.2.language)
            st.languages
        scan_errors := st.scan_errors ++ errMsgs files } := by
  induction files generalizing st with
  | nil => simp [okEntries, errMsgs]
  | cons f rest ih =>
    cases hr : f.result with
    | ok deps meta =>
      rw [List.foldl_cons, ih]
      simp only [okEntries, errMsgs, List.filterMap_cons, hr, scanStep,
        List.foldl_cons, List.length_cons]
      simp only [ScanState.mk.injEq]
      refine ⟨by trivial, by trivial, by omega, by trivial, by trivial⟩
    | err msg =>
      rw [List.foldl_cons, ih]
      simp only [okEntries, errMsgs, List.filterMap_cons, hr, scanStep]
      simp only [ScanState.mk.injEq]
      refine ⟨by trivial, by trivial, by trivial, by trivial, by simp⟩

/-! ## Generic list helper lemmas -/

theorem length_filterMap_eq_length_filter {α β : Type} (g : α → Option β)
    (l : List α) :
    (l.filterMap g).length = (l.filter (fun a => (g a).isSome)).length := by
  induction l with
  | nil => rfl
  | cons a rest ih =>
    cases hg : g a with
    | none => simp [List.filterMap_cons, List.filter_cons, hg, ih]
    | some b => simp [List.filterMap_cons, List.filter_cons, hg, ih]

theorem length_flatMap_eq_sum {α β : Type} (l : List α) (f : α → List β) :
    (l.flatMap f).length = (l.map (fun a => (f a).length)).sum := by
  induction l with
  | nil => rfl
  | cons a rest ih => simp [List.flatMap_cons, ih]

theorem find?_append_of_ne {α : Type} (p : α → Bool) (l₁ l₂ : List α)
    (h : ∀ x ∈ l₂, p x = false) :
    (l₁ ++ l₂).find? p = l₁.find? p := by
  induction l₁ with
  | nil =>
    simp only [List.nil_append, List.find?_nil]
    rw [List.find?_eq_none]
    intro x hx
    simp [h x hx]
  | cons a rest ih =>
    cases ha : p a with
    | true => simp [List.find?_cons, ha]
    | false => simp [List.find?_cons, ha, ih]

theorem takeWhile_eq_self_of_all {α : Type} (p : α → Bool) (l : List α)
    (h : ∀ c ∈ l, p c = true) : l.takeWhile p = l := by
  induction l with
  | nil => rfl
  | cons a rest ih =>
    have ha := h a (List.mem_cons_self a rest)
    have ih' := ih (fun c hc => h c (List.mem_cons_of_mem a hc))
    simp [List.takeWhile_cons, ha, ih']

theorem splitLines_ne_nil (l : List Char) : splitLines l ≠ [] := by
  cases l with
  | nil => simp [splitLines]
  | cons c rest =>
    by_cases h : c = '\n'
    · simp [splitLines, h]
    · simp only [splitLines, if_neg h]
      cases splitLines rest <;> simp

theorem splitLines_length (l : List Char) :
    (splitLines l).length = l.count '\n' + 1 := by
  induction l with
  | nil => rfl
  | cons c rest ih =>
    by_cases h : c = '\n'
    · subst h
      simp [splitLines, List.count_cons, ih]
    · simp only [splitLines, if_neg h]
      rcases hs : splitLines rest with _ | ⟨hd, tl⟩
      · exact absurd hs (splitLines_ne_nil rest)
      · rw [hs] at ih
        simp only [List.length_cons] at ih ⊢
        rw [List.count_cons]
        simp [h, ih]

theorem contains_eq_true_iff_mem {l : List String} {a : String} :
    l.contains a = true ↔ a ∈ l := by
  simp [List.contains, List.elem_iff]

/-- Inverting a successful `scan_directory` run. -/
theorem scan_ok_inv {root name : String} {files : List ScanFile}
    {doc : ScanDocument}
    (h : scan_directory root true true name files = .ok doc) :
    doc = mkDoc root name files := by
  unfold scan_directory at h
  simp at h
  exact h.symm

/-- The returned document, written over the ok-file characterization. -/
theorem mkDoc_fields (root name : String) (files : List ScanFile) :
    mkDoc root name files =
      { project_name := name
        root_path := root
        nodes := build_nodes
          ((okEntries files).foldl (fun d e => dictInsert d e.1 e.2.2) [])
        links := build_links
          ((okEntries files).foldl (fun d e => dictInsert d e.1 e.2.1) [])
          ((okEntries files).foldl (fun d e => dictInsert d e.1 e.2.2) [])
        metadata :=
          { total_files := (okEntries files).length
            languages :=
              (okEntries files).foldl (fun d e => tallyIncr d e.2.2.language) []
            scan_errors := errMsgs files } } := by
  unfold mkDoc
  rw [foldl_scanStep_char]
  simp [initState]

/-- The ok-entry keys are a sublist of all the relative paths. -/
theorem okEntries_keys_sublist (files : List ScanFile) :
    ((okEntries files).map Prod.fst).Sublist (files.map ScanFile.rel) := by
  induction files with
  | nil => simp [okEntries]
  | cons f rest ih =>
    cases hr : f.result with
    | ok d m =>
      simp only [okEntries, List.filterMap_cons, hr, List.map_cons] at *
      exact ih.cons₂ f.rel
    | err m =>
      simp only [okEntries, List.filterMap_cons, hr, List.map_cons] at *
      exact ih.cons f.rel

/-- Every link produced by `_build_links` has its source and target among
the keys of `file_dependencies`, and unit weight. -/
theorem mem_build_links {fd : List (String × List String)}
    {fi : List (String × FileMeta)} {l : Link}
    (h : l ∈ build_links fd fi) :
    l.source ∈ fd.map Prod.fst ∧ l.target ∈ fd.map Prod.fst ∧ l.value = 1 := by
  unfold build_links at h
  rw [List.mem_flatMap] at h
  obtain ⟨e, he, hl⟩ := h
  rw [List.mem_filterMap] at hl
  obtain ⟨dep, _, hres⟩ := hl
  cases hr : resolve_dep (fd.map Prod.fst) e.1 dep with
  | none =>
    rw [hr] at hres
    simp at hres
  | some t =>
    rw [hr] at hres
    simp only [Option.map_some'] at hres
    have hl' : l = { source := e.1, target := t, value := 1 } :=
      (Option.some.injEq _ _ ▸ hres).symm
    have ht : t ∈ fd.map Prod.fst := by
      have := List.find?_some hr
      exact contains_eq_true_iff_mem.mp this
    rw [hl']
    exact ⟨List.mem_map_of_mem Prod.fst he, ht, rfl⟩

/-- Every `file_info` key has a node carrying it as id. -/
theorem exists_node_of_mem_keys {fi : List (String × FileMeta)} {x : String}
    (h : x ∈ fi.map Prod.fst) : ∃ n ∈ build_nodes fi, n.id = x := by
  rw [List.mem_map] at h
  obtain ⟨e, he, hx⟩ := h
  exact ⟨_, List.mem_map_of_mem _ he, hx⟩

/-- C2: for every completed scan of a valid root, `metadata.total_files`
equals the number of nodes, and the per-language counts in
`metadata.languages` sum to `metadata.total_files`.  The hypothesis that
the relative paths are distinct is guaranteed by the filesystem: `os.walk`
yields each file once and `os.path.relpath` is injective on them. -/
theorem scan_counts_consistent (root name : String) (files : List ScanFile)
    (doc : ScanDocument)
    (hnodup : (files.map ScanFile.rel).Nodup)
    (hdoc : scan_directory root true true name files = .ok doc) :
    doc.metadata.total_files = doc.nodes.length ∧
    sumValues doc.metadata.languages = doc.metadata.total_files := by
  have hd := scan_ok_inv hdoc
  subst hd
  rw [mkDoc_fields]
  have hkeys : ((okEntries files).map Prod.fst).Nodup :=
    hnodup.sublist (okEntries_keys_sublist files)
  constructor
  · simp only [build_nodes, List.length_map]
    have hlen := length_foldl_insert Prod.fst (fun e => e.2.2)
      (okEntries files) [] hkeys (by simp)
    simp only [List.length_nil, Nat.zero_add] at hlen
    exact hlen.symm
  · have hsum := sumValues_foldl_tallyIncr (fun e => e.2.2.language)
      (okEntries files) [] (by simp)
    simp only [sumValues, List.map_nil, List.sum_nil, Nat.zero_add] at hsum
    exact hsum

/-- C2 witness input: a two-file project, `a.py` importing `b`. -/
def filesAB : List ScanFile :=
  [⟨"/r/a.py", "a.py", .ok ["b"] (file_metadata ".py" "import b\n")⟩,
   ⟨"/r/b.py", "b.py", .ok [] (file_metadata ".py" "x = 1\n")⟩]

/-- C2 witness: the consistency equations hold on the two-file project. -/
theorem scan_counts_consistent_witness :
    (mkDoc "/r" "proj" filesAB).metadata.total_files
        = (mkDoc "/r" "proj" filesAB).nodes.length ∧
    sumValues (mkDoc "/r" "proj" filesAB).metadata.languages
        = (mkDoc "/r" "proj" filesAB).metadata.total_files :=
  scan_counts_consistent "/r" "proj" filesAB (mkDoc "/r" "proj" filesAB)
    (by decide) rfl

/-- C3: in every returned scan document, every link's source and target
equal the id of some node of the same document — no dangling edges. -/
theorem links_not_dangling (root name : String) (files : List ScanFile)
    (doc : ScanDocument) (l : Link)
    (hdoc : scan_directory root true true name files = .ok doc)
    (hl : l ∈ doc.links) :
    (∃ n ∈ doc.nodes, n.id = l.source) ∧ (∃ n ∈ doc.nodes, n.id = l.target) := by
  have hd := scan_ok_inv hdoc
  subst hd
  rw [mkDoc_fields] at hl ⊢
  simp only at hl ⊢
  have hmem := mem_build_links hl
  have hkeys : ∀ x : String,
      (x ∈ ((okEntries files).foldl
          (fun d e => dictInsert d e.1 e.2.1) []).map Prod.fst) ↔
      (x ∈ ((okEntries files).foldl
          (fun d e => dictInsert d e.1 e.2.2) []).map Prod.fst) := by
    intro x
    rw [mem_keys_foldl_insert Prod.fst (fun e => e.2.1) (okEntries files) [] x,
        mem_keys_foldl_insert Prod.fst (fun e => e.2.2) (okEntries files) [] x]
    exact Iff.rfl
  constructor
  · exact exists_node_of_mem_keys ((hkeys l.source).mp hmem.1)
  · exact exists_node_of_mem_keys ((hkeys l.target).mp hmem.2.1)

/-- C3 witness: the one link of the two-file project has both endpoints
among the node ids. -/
theorem links_not_dangling_witness :
    (∃ n ∈ (mkDoc "/r" "proj" filesAB).nodes, n.id = "a.py") ∧
    (∃ n ∈ (mkDoc "/r" "proj" filesAB).nodes, n.id = "b.py") :=
  links_not_dangling "/r" "proj" filesAB (mkDoc "/r" "proj" filesAB)
    ⟨"a.py", "b.py", 1⟩ rfl (by decide)

/-- C6: a file whose extraction raises contributes exactly one error string
to `metadata.scan_errors` — at its position in file order — and nothing
else: nodes, links, the total file count and the per-language counts are
those of the same scan without that file, and the files after it are still
processed. -/
theorem per_file_error_isolated (root name : String)
    (pre post : List ScanFile) (fp rel msg : String) :
    ∃ doc doc' : ScanDocument,
      scan_directory root true true name
          (pre ++ ⟨fp, rel, .err msg⟩ :: post) = .ok doc ∧
      scan_directory root true true name (pre ++ post) = .ok doc' ∧
      doc.nodes = doc'.nodes ∧
      doc.links = doc'.links ∧
      doc.metadata.total_files = doc'.metadata.total_files ∧
      doc.metadata.languages = doc'.metadata.languages ∧
      doc.metadata.scan_errors =
        errMsgs pre ++ ("Error parsing " ++ fp ++ ": " ++ msg) :: errMsgs post ∧
      doc'.metadata.scan_errors = errMsgs pre ++ errMsgs post := by
  refine ⟨mkDoc root name (pre ++ ⟨fp, rel, .err msg⟩ :: post),
          mkDoc root name (pre ++ post), rfl, rfl, ?_⟩
  have hok : okEntries (pre ++ ⟨fp, rel, .err msg⟩ :: post)
      = okEntries (pre ++ post) := by
    unfold okEntries
    simp [List.filterMap_append, List.filterMap_cons]
  have herr : errMsgs (pre ++ ⟨fp, rel, .err msg⟩ :: post)
      = errMsgs pre ++ ("Error parsing " ++ fp ++ ": " ++ msg) :: errMsgs post := by
    unfold errMsgs
    simp [List.filterMap_append, List.filterMap_cons]
  have herr' : errMsgs (pre ++ post) = errMsgs pre ++ errMsgs post := by
    unfold errMsgs
    simp [List.filterMap_append]
  rw [mkDoc_fields, mkDoc_fields, hok, herr, herr']
  exact ⟨rfl, rfl, rfl, rfl, rfl, rfl⟩

/-- C7: an invalid root (missing, or present but not a directory) makes the
scan signal a single structured error and return no document; a root that
exists and is a directory never takes either fatal branch. -/
theorem root_validation (root name : String) (rootExists rootIsDir : Bool)
    (files : List ScanFile) :
    (rootExists = false →
      scan_directory root rootExists rootIsDir name files
        = .error ("Path does not exist: " ++ root)) ∧
    (rootExists = true → rootIsDir = false →
      scan_directory root rootExists rootIsDir name files
        = .error ("Path is not a directory: " ++ root)) ∧
    (rootExists = true → rootIsDir = true →
      scan_directory root rootExists rootIsDir name files
        = .ok (mkDoc root name files)) := by
  refine ⟨fun he => ?_, fun he hd => ?_, fun he hd => ?_⟩
  · subst he
    rfl
  · subst he
    subst hd
    rfl
  · subst he
    subst hd
    rfl

/-- C7 witness: the fatal branches and the valid branch, each at a concrete
root. -/
theorem root_validation_witness :
    scan_directory "/missing" false true "p" []
        = .error ("Path does not exist: " ++ "/missing") ∧
    scan_directory "/afile" true false "p" []
        = .error ("Path is not a directory: " ++ "/afile") ∧
    scan_directory "/ok" true true "p" [] = .ok (mkDoc "/ok" "p" []) :=
  ⟨(root_validation "/missing" "p" false true []).1 rfl,
   (root_validation "/afile" "p" true false []).2.1 rfl rfl,
   (root_validation "/ok" "p" true true []).2.2 rfl rfl⟩

/-- C1 (amended): for every entry of `file_dependencies` and every
dependency in its list, `_build_links` tries the fixed ordered candidate
list `possible_targets` — the bare name with `.py`, `.js`, `.ts` appended
(only these three; the supported extensions `.tsx` and `.jsx` are not
tried), then the same three within the source file's top-level directory —
and the first candidate among the scanned relative paths produces exactly
one link; when no candidate matches, the dependency produces no link and
no error. -/
theorem link_resolution_first_match
    (fd : List (String × List String)) (fi : List (String × FileMeta))
    (ff : String) (deps : List String) (dep : String)
    (hentry : (ff, deps) ∈ fd) (hdep : dep ∈ deps) :
    (∀ t, resolve_dep (fd.map Prod.fst) ff dep = some t →
      t ∈ fd.map Prod.fst ∧
      Link.mk ff t 1 ∈ build_links fd fi ∧
      ∃ pre post, possible_targets ff dep = pre ++ t :: post ∧
        ∀ c ∈ pre, c ∉ fd.map Prod.fst) ∧
    (resolve_dep (fd.map Prod.fst) ff dep = none ↔
      ∀ c ∈ possible_targets ff dep, c ∉ fd.map Prod.fst) ∧
    (build_links fd fi).length =
      (fd.map (fun e =>
        (e.2.filter (fun d =>
          (resolve_dep (fd.map Prod.fst) e.1 d).isSome)).length)).sum := by
  refine ⟨?_, ?_, ?_⟩
  · intro t ht
    have hfind := List.find?_eq_some.mp ht
    obtain ⟨hpt, pre, post, hsplit, hpre⟩ := hfind
    refine ⟨contains_eq_true_iff_mem.mp hpt, ?_, pre, post, hsplit, ?_⟩
    · unfold build_links
      rw [List.mem_flatMap]
      refine ⟨(ff, deps), hentry, ?_⟩
      rw [List.mem_filterMap]
      refine ⟨dep, hdep, ?_⟩
      show (resolve_dep (fd.map Prod.fst) ff dep).map _ = _
      rw [ht]
      rfl
    · intro c hc hmem
      have hfalse := hpre c hc
      rw [Bool.not_eq_eq_eq_not, Bool.not_true] at hfalse
      rw [← contains_eq_true_iff_mem] at hmem
      rw [hfalse] at hmem
      exact Bool.false_ne_true hmem
  · constructor
    · intro hn c hc hmem
      rw [resolve_dep, List.find?_eq_none] at hn
      exact hn c hc (contains_eq_true_iff_mem.mpr hmem)
    · intro hall
      rw [resolve_dep, List.find?_eq_none]
      intro c hc hct
      exact hall c hc (contains_eq_true_iff_mem.mp hct)
  · unfold build_links
    rw [length_flatMap_eq_sum]
    congr 1
    apply List.map_congr_left
    intro e _
    rw [length_filterMap_eq_length_filter]
    congr 1
    apply List.filter_congr
    intro d _
    simp

/-- Candidate list modelled from the spec/claim wording: the bare name with
EACH supported extension appended, then the same within the source file's
top-level directory. -/
def claim_possible_targets (from_file dep : String) : List String :=
  (supported_extensions.map (fun e => dep ++ e.1)) ++
    (supported_extensions.map (fun e => joinPath (topDir from_file) (dep ++ e.1)))

/-- C1 counterexample: with scanned files `a.ts` and `b.tsx`, and `a.ts`
depending on `b`, the claimed candidate list contains the discovered path
`b.tsx` (the bare name with the supported extension `.tsx` appended), yet
`_build_links` produces no link at all, because its actual candidate list
stops at `.py`, `.js`, `.ts`. -/
theorem link_resolution_tsx_counterexample :
    ("b.tsx" ∈ claim_possible_targets "a.ts" "b") ∧
    ("b.tsx" ∈ ([("a.ts", ["b"]), ("b.tsx", [])] :
        List (String × List String)).map Prod.fst) ∧
    build_links [("a.ts", ["b"]), ("b.tsx", [])] [] = [] ∧
    ("b.tsx" ∉ possible_targets "a.ts" "b") := by decide

/-- C1 witness: with scanned files `a.py` and `b.py`, the dependency `b` of
`a.py` resolves to the first candidate `b.py` and yields its link. -/
theorem link_resolution_first_match_witness :
    "b.py" ∈ ([("a.py", ["b"]), ("b.py", [])] :
        List (String × List String)).map Prod.fst ∧
    Link.mk "a.py" "b.py" 1 ∈ build_links [("a.py", ["b"]), ("b.py", [])] [] :=
  have h := (link_resolution_first_match [("a.py", ["b"]), ("b.py", [])] []
    "a.py" ["b"] "b" (by decide) (by decide)).1 "b.py" (by decide)
  ⟨h.1, h.2.1⟩

/-- C10: for a source file whose relative path has no separator (a file at
the scanned root), `from_file.split('/')[0]` is the file's own full
filename, so the three same-top-level-directory candidates are formed by
joining that filename as if it were a directory (`ff ++ "/" ++ …`); since
no scanned path lies under a directory named like the file, those three
candidates never match, and resolution reduces to the three bare
candidates. -/
theorem root_level_file_resolution (all : List String) (ff dep : String)
    (hne : ff ≠ "")
    (hsep : ∀ c ∈ ff.data, c ≠ '/')
    (hfile : ∀ p ∈ all, ((ff ++ "/").data.isPrefixOf p.data) = false) :
    topDir ff = ff ∧
    (∀ ext ∈ [".py", ".js", ".ts"],
        joinPath (topDir ff) (dep ++ ext) = ff ++ "/" ++ (dep ++ ext)) ∧
    (∀ ext ∈ [".py", ".js", ".ts"],
        joinPath (topDir ff) (dep ++ ext) ∉ all) ∧
    resolve_dep all ff dep =
      [dep ++ ".py", dep ++ ".js", dep ++ ".ts"].find?
        (fun t => all.contains t) := by
  have htop : topDir ff = ff := by
    apply String.ext
    show ff.data.takeWhile (fun c => c != '/') = ff.data
    apply takeWhile_eq_self_of_all
    intro c hc
    exact bne_iff_ne.mpr (hsep c hc)
  have hslash : endsWithSlash ff = false := by
    unfold endsWithSlash
    cases hg : ff.data.getLast? with
    | none => rfl
    | some c =>
      by_cases hcs : c = '/'
      · subst hcs
        exact absurd rfl (hsep '/' (List.mem_of_getLast?_eq_some hg))
      · simp [hcs]
  have hjoin : ∀ x : String, joinPath (topDir ff) x = ff ++ "/" ++ x := by
    intro x
    rw [htop]
    unfold joinPath
    rw [if_neg hne, hslash]
    simp
  have hnomatch : ∀ x : String, (ff ++ "/" ++ x) ∉ all := by
    intro x hmem
    have hfx := hfile _ hmem
    have : (ff ++ "/").data.isPrefixOf ((ff ++ "/" ++ x).data) = true := by
      rw [List.isPrefixOf_iff_prefix]
      show (ff ++ "/").data <+: (ff ++ "/" ++ x).data
      rw [String.data_append (ff ++ "/") x]
      exact List.prefix_append _ _
    rw [hfx] at this
    exact Bool.false_ne_true this
  refine ⟨htop, fun ext _ => hjoin (dep ++ ext), fun ext hext => ?_, ?_⟩
  · rw [hjoin (dep ++ ext)]
    exact hnomatch (dep ++ ext)
  · unfold resolve_dep possible_targets
    have hsplit : [dep ++ ".py", dep ++ ".js", dep ++ ".ts",
        joinPath (topDir ff) (dep ++ ".py"),
        joinPath (topDir ff) (dep ++ ".js"),
        joinPath (topDir ff) (dep ++ ".ts")] =
        [dep ++ ".py", dep ++ ".js", dep ++ ".ts"] ++
        [joinPath (topDir ff) (dep ++ ".py"),
         joinPath (topDir ff) (dep ++ ".js"),
         joinPath (topDir ff) (dep ++ ".ts")] := rfl
    rw [hsplit]
    apply find?_append_of_ne
    intro x hx
    have hxn : x ∉ all := by
      simp only [List.mem_cons, List.not_mem_nil, or_false] at hx
      rcases hx with hx | hx | hx <;> (rw [hx, hjoin]; exact hnomatch _)
    cases hc : all.contains x with
    | false => rfl
    | true => exact absurd (contains_eq_true_iff_mem.mp hc) hxn

/-- C10 witness: root-level file `a.py` with dependency `b` among scanned
paths `a.py`, `b.py`: the directory-joined candidates are dead and the bare
candidates decide resolution. -/
theorem root_level_file_resolution_witness :
    topDir "a.py" = "a.py" ∧
    (∀ ext ∈ [".py", ".js", ".ts"],
        joinPath (topDir "a.py") ("b" ++ ext) = "a.py" ++ "/" ++ ("b" ++ ext)) ∧
    (∀ ext ∈ [".py", ".js", ".ts"],
        joinPath (topDir "a.py") ("b" ++ ext) ∉ ["a.py", "b.py"]) ∧
    resolve_dep ["a.py", "b.py"] "a.py" "b" =
      ["b" ++ ".py", "b" ++ ".js", "b" ++ ".ts"].find?
        (fun t => (["a.py", "b.py"] : List String).contains t) :=
  root_level_file_resolution ["a.py", "b.py"] "a.py" "b"
    (by decide) (by decide) (by decide)

/-! ## The normalizer (C4) -/

theorem slash_not_mem_lastSegment (s : String) : '/' ∉ (lastSegment s).data := by
  unfold lastSegment
  intro h
  rw [List.mem_reverse] at h
  have hp := List.mem_takeWhile_imp h
  simp at hp

theorem slash_not_mem_dropKnownSuffix {s : String} (h : '/' ∉ s.data) :
    '/' ∉ (dropKnownSuffix s).data := by
  unfold dropKnownSuffix
  cases hf : known_ext_suffixes.find? (fun suf => suf.data.isSuffixOf s.data) with
  | none => exact h
  | some suf =>
    intro hm
    exact h (List.take_subset _ _ hm)

theorem slash_not_mem_strip_ext {s : String} (h : '/' ∉ s.data) :
    '/' ∉ (strip_ext s).data := by
  unfold strip_ext
  by_cases hl : s.data.getLast? = some '\n'
  · rw [if_pos hl]
    intro hm
    rw [String.data_append] at hm
    rcases List.mem_append.mp hm with hm | hm
    · have hdl : '/' ∉ (⟨s.data.dropLast⟩ : String).data := by
        show '/' ∉ s.data.dropLast
        intro hx
        exact h (List.dropLast_subset _ hx)
      exact slash_not_mem_dropKnownSuffix hdl hm
    · simp at hm
  · rw [if_neg hl]
    exact slash_not_mem_dropKnownSuffix h

theorem lastSegment_of_no_slash {s : String} (h : '/' ∉ s.data) :
    lastSegment s = s := by
  apply String.ext
  show (s.data.reverse.takeWhile (fun c => c != '/')).reverse = s.data
  rw [takeWhile_eq_self_of_all _ _ ?hall, List.reverse_reverse]
  case hall =>
    intro c hc
    rw [List.mem_reverse] at hc
    exact bne_iff_ne.mpr (fun hcc => h (hcc ▸ hc))

/-- C4 (amended): the normalizer is a total pure function taking the final
path segment and stripping one trailing known source extension, returning
unparseable input unchanged; it is idempotent on every input whose
normalized form is not itself further strippable.  (When one strip uncovers
another known extension — e.g. `"a.js.js"` — a second application strips
again, so unconditional idempotence fails.) -/
theorem clean_js_import_idempotent_cond (x : String)
    (h : strip_ext (clean_js_import x) = clean_js_import x) :
    clean_js_import (clean_js_import x) = clean_js_import x := by
  show strip_ext (lastSegment (clean_js_import x)) = clean_js_import x
  have hns : '/' ∉ (clean_js_import x).data :=
    slash_not_mem_strip_ext (slash_not_mem_lastSegment x)
  rw [lastSegment_of_no_slash hns]
  exact h

/-- C4 counterexample: normalizing `"a.js.js"` gives `"a.js"`, and
normalizing again gives `"a"` — `normalize (normalize x) = normalize x`
fails as stated. -/
theorem clean_js_import_not_idempotent :
    clean_js_import "a.js.js" = "a.js" ∧
    clean_js_import (clean_js_import "a.js.js") = "a" ∧
    clean_js_import (clean_js_import "a.js.js") ≠ clean_js_import "a.js.js" := by
  decide

/-- C4 witness: on `"./lib/util.js"`, whose normalized form `"util"` ends in
no known extension, the normalizer is idempotent. -/
theorem clean_js_import_idempotent_cond_witness :
    clean_js_import (clean_js_import "./lib/util.js")
      = clean_js_import "./lib/util.js" :=
  clean_js_import_idempotent_cond "./lib/util.js" (by decide)

/-! ## The fallback path (C5) -/

/-- C5: when the structural parse of a Python file fails with a syntax
error, `_parse_python_imports` falls back — within the same call — to the
line-oriented pattern match, which is a total function of the content and
cannot raise; the extractor therefore returns normally, so the file still
contributes a node and adds nothing to `metadata.scan_errors`. -/
theorem python_ast_failure_fallback (root name fp p : String)
    (content : String) (meta : FileMeta) (pre post : List ScanFile)
    (doc : ScanDocument)
    (hdoc : scan_directory root true true name
        (pre ++ ⟨fp, p, .ok (parse_python_imports none content) meta⟩ :: post)
        = .ok doc) :
    parse_python_imports none content = python_fallback content ∧
    (∃ n ∈ doc.nodes, n.id = p) ∧
    doc.metadata.scan_errors = errMsgs pre ++ errMsgs post := by
  have hd := scan_ok_inv hdoc
  subst hd
  rw [mkDoc_fields]
  refine ⟨rfl, ?_, ?_⟩
  · have he : (p, parse_python_imports none content, meta) ∈
        okEntries (pre ++ ⟨fp, p, .ok (parse_python_imports none content) meta⟩ :: post) := by
      unfold okEntries
      rw [List.mem_filterMap]
      refine ⟨⟨fp, p, .ok (parse_python_imports none content) meta⟩, ?_, rfl⟩
      rw [List.mem_append]
      exact Or.inr (List.mem_cons_self _ _)
    have hmem := List.mem_map_of_mem Prod.fst he
    apply exists_node_of_mem_keys
    rw [mem_keys_foldl_insert Prod.fst (fun e => e.2.2)
      (okEntries (pre ++ ⟨fp, p, .ok (parse_python_imports none content) meta⟩ :: post))
      [] p]
    exact Or.inr hmem
  · show errMsgs (pre ++ ⟨fp, p, .ok (parse_python_imports none content) meta⟩ :: post)
        = errMsgs pre ++ errMsgs post
    unfold errMsgs
    simp [List.filterMap_append, List.filterMap_cons]

/-- C5 witness: a Python file whose structural parse fails (`none`) but
whose fallback extracts `os`: it gets a node and the error list stays
empty. -/
theorem python_ast_failure_fallback_witness :
    parse_python_imports none "import os\n(((" = python_fallback "import os\n(((" ∧
    (∃ n ∈ (mkDoc "/r" "p"
        [⟨"/r/bad.py", "bad.py",
          .ok (parse_python_imports none "import os\n(((")
             (file_metadata ".py" "import os\n(((")⟩]).nodes, n.id = "bad.py") ∧
    (mkDoc "/r" "p"
        [⟨"/r/bad.py", "bad.py",
          .ok (parse_python_imports none "import os\n(((")
             (file_metadata ".py" "import os\n(((")⟩]).metadata.scan_errors
      = errMsgs [] ++ errMsgs [] :=
  python_ast_failure_fallback "/r" "p" "/r/bad.py" "bad.py" "import os\n((("
    (file_metadata ".py" "import os\n(((") [] []
    (mkDoc "/r" "p"
        [⟨"/r/bad.py", "bad.py",
          .ok (parse_python_imports none "import os\n(((")
             (file_metadata ".py" "import os\n(((")⟩]) rfl

/-! ## Discovery pruning (C8) -/

theorem walk_dirs_append (path : String) (l₁ l₂ : List (String × FSTree)) :
    walk_dirs path (l₁ ++ l₂) = walk_dirs path l₁ ++ walk_dirs path l₂ := by
  induction l₁ with
  | nil => simp [walk_dirs]
  | cons d rest ih => simp [walk_dirs, ih]

/-- C8: skip-named directories are pruned at the directory level — the walk
result does not depend on anything below them, so their descendants are
never visited — and a root containing only a skipped directory scans to the
empty document: zero files, no nodes, no links, no errors. -/
theorem skip_dirs_pruned (path root name nm : String)
    (pre post : List (String × FSTree)) (sub : FSTree) (fs : List String)
    (hskip : nm ∈ skip_dirs) :
    walk_files path (.node (pre ++ (nm, sub) :: post) fs)
      = walk_files path (.node (pre ++ post) fs) ∧
    walk_files root (.node [(nm, sub)] []) = [] ∧
    scan_directory root true true name [] = .ok (mkDoc root name []) ∧
    (mkDoc root name []).metadata.total_files = 0 ∧
    (mkDoc root name []).nodes = [] ∧
    (mkDoc root name []).links = [] ∧
    (mkDoc root name []).metadata.scan_errors = [] := by
  refine ⟨?_, ?_, rfl, rfl, rfl, rfl, rfl⟩
  · rw [walk_files, walk_files]
    congr 1
    rw [walk_dirs_append, walk_dirs_append]
    congr 1
    show walk_dirs path ((nm, sub) :: post) = walk_dirs path post
    rw [walk_dirs]
    rw [if_pos hskip]
    rfl
  · rw [walk_files]
    show [] ++ walk_dirs root [(nm, sub)] = []
    rw [walk_dirs, if_pos hskip]
    rfl

/-- C8 witness: a root holding only `node_modules` (itself containing a
source file) walks to nothing and scans to the empty document. -/
theorem skip_dirs_pruned_witness :
    walk_files "/r" (.node ([] ++ ("node_modules", .node [] ["evil.py"]) :: []) [])
      = walk_files "/r" (.node ([] ++ []) []) ∧
    walk_files "/r" (.node [("node_modules", .node [] ["evil.py"])] []) = [] ∧
    scan_directory "/r" true true "p" [] = .ok (mkDoc "/r" "p" []) ∧
    (mkDoc "/r" "p" []).metadata.total_files = 0 ∧
    (mkDoc "/r" "p" []).nodes = [] ∧
    (mkDoc "/r" "p" []).links = [] ∧
    (mkDoc "/r" "p" []).metadata.scan_errors = [] :=
  skip_dirs_pruned "/r" "/r" "p" "node_modules" [] []
    (.node [] ["evil.py"]) [] (by decide)

/-! ## File metadata counts (C9) -/

theorem utf8ByteSize_eq_length_of_single_byte (s : String)
    (h : ∀ c ∈ s.data, c.utf8Size = 1) : s.utf8ByteSize = s.length := by
  cases s with
  | mk l =>
    show String.utf8ByteSize.go l = l.length
    induction l with
    | nil => rfl
    | cons c cs ih =>
      have hc : c.utf8Size = 1 := h c (List.mem_cons_self c cs)
      have ih' := ih (fun x hx => h x (List.mem_cons_of_mem c hx))
      show String.utf8ByteSize.go cs + c.utf8Size = cs.length + 1
      rw [ih', hc]

/-- C9 (amended): for every discovered file, regardless of language, the
`size` field records the number of characters of the decoded text — which
coincides with the file's byte size exactly when every character encodes in
one byte (ASCII) — and the `lines` field records the number of
newline-separated segments (newline count plus one), both computed
uniformly for all languages. -/
theorem file_metadata_uniform_char_counts (ext ext2 : String)
    (content : String) :
    (file_metadata ext content).size = content.length ∧
    (file_metadata ext content).lines = content.data.count '\n' + 1 ∧
    (file_metadata ext content).size = (file_metadata ext2 content).size ∧
    (file_metadata ext content).lines = (file_metadata ext2 content).lines ∧
    ((∀ c ∈ content.data, c.utf8Size = 1) →
      (file_metadata ext content).size = content.utf8ByteSize) := by
  refine ⟨rfl, splitLines_length content.data, rfl, rfl, ?_⟩
  intro hascii
  show content.length = content.utf8ByteSize
  exact (utf8ByteSize_eq_length_of_single_byte content hascii).symm

/-- C9 counterexample: a file containing the two-byte character `é` gets
`size = 1` (character count), not its byte size `2` — the `size` field does
not record the byte size. -/
theorem file_metadata_size_not_bytes :
    (file_metadata ".py" "é").size = 1 ∧
    ("é" : String).utf8ByteSize = 2 ∧
    (file_metadata ".py" "é").size ≠ ("é" : String).utf8ByteSize := by
  decide

/-- C9 witness: on the ASCII content `"ab\ncd"` the counts are uniform
across extensions and the size coincides with the byte size. -/
theorem file_metadata_uniform_char_counts_witness :
    (file_metadata ".py" "ab\ncd").size = ("ab\ncd" : String).length ∧
    (file_metadata ".py" "ab\ncd").lines
      = ("ab\ncd" : String).data.count '\n' + 1 ∧
    (file_metadata ".py" "ab\ncd").size = (file_metadata ".ts" "ab\ncd").size ∧
    (file_metadata ".py" "ab\ncd").lines = (file_metadata ".ts" "ab\ncd").lines ∧
    (file_metadata ".py" "ab\ncd").size = ("ab\ncd" : String).utf8ByteSize :=
  have h := file_metadata_uniform_char_counts ".py" ".ts" "ab\ncd"
  ⟨h.1, h.2.1, h.2.2.1, h.2.2.2.1, h.2.2.2.2 (by decide)⟩
